import Mathlib

/-!
# Verification of the OpenMDAO derivative-propagation and solver engine spec

This file gives a shallow embedding, over exact rational arithmetic, of the
parts of the OpenMDAO solver/derivative engine that the specification talks
about: line-search bound enforcement, partial-Jacobian declaration and
assembly, total-derivative computation in forward and reverse mode, coloring,
and the solver failure/option semantics.  The repository snapshot contains the
documentation notebooks of these features; where the implementing Python
module itself is absent, a definition is modelled from the specification text
(such definitions carry a `Modelled from the spec:` doc comment).
-/

namespace OpenMDAO

/-! Section: Bound enforcement for line searches

Modelled from the spec (§4.5) and the prose of
`docs/openmdao_book/features/building_blocks/solvers/bounds_enforce.ipynb`:
an output vector `u` that has just taken a full Newton step `du` from a
feasible point `u0` (so `u = u0 + du`) is pulled back into the bound box
`[lower, upper]` according to a `bound_enforcement` policy.  Bounds are
optional per entry. -/

/-- Modelled from the spec: clip a value at an optional lower bound. -/
def clipLower (x : ℚ) : Option ℚ → ℚ
  | none => x
  | some lo => max x lo

/-- Modelled from the spec: clip a value at an optional upper bound. -/
def clipUpper (x : ℚ) : Option ℚ → ℚ
  | none => x
  | some hi => min x hi

/-- Modelled from the spec: does `x` violate either of its optional bounds? -/
def violatesBounds (x : ℚ) (lo hi : Option ℚ) : Bool :=
  (match lo with
   | none => false
   | some l => decide (x < l)) ||
  (match hi with
   | none => false
   | some h => decide (h < x))

/-- Modelled from the spec: the optional lower bound is respected. -/
def lbOk (x : ℚ) : Option ℚ → Prop
  | none => True
  | some l => l ≤ x

/-- Modelled from the spec: the optional upper bound is respected. -/
def ubOk (x : ℚ) : Option ℚ → Prop
  | none => True
  | some h => x ≤ h

instance (x : ℚ) (o : Option ℚ) : Decidable (lbOk x o) := by
  cases o <;> unfold lbOk <;> infer_instance

instance (x : ℚ) (o : Option ℚ) : Decidable (ubOk x o) := by
  cases o <;> unfold ubOk <;> infer_instance

/-- Modelled from the spec: a value is inside its (optional) bounds. -/
def inBounds (x : ℚ) (lo hi : Option ℚ) : Prop :=
  lbOk x lo ∧ ubOk x hi

instance (x : ℚ) (lo hi : Option ℚ) : Decidable (inBounds x lo hi) := by
  unfold inBounds; infer_instance

/-- Modelled from the spec ("scalar": roll back only the violating entries,
keep others at the full step; the backtracking vector is modified so that it
still points toward the initial point).  Returns the enforced point together
with the step vector used for any further backtracking. -/
def enforceScalar {n : ℕ} (u du : Fin n → ℚ) (lo hi : Fin n → Option ℚ) :
    (Fin n → ℚ) × (Fin n → ℚ) :=
  (fun i => clipUpper (clipLower (u i) (lo i)) (hi i),
   fun i => du i + (clipUpper (clipLower (u i) (lo i)) (hi i) - u i))

/-- Modelled from the spec ("wall": roll back only the violating entries, keep
others at the full step; further backtracking only along the non-violating
directions, i.e. the step is zeroed at the capped entries).  Returns the
enforced point together with the step vector used for further backtracking. -/
def enforceWall {n : ℕ} (u du : Fin n → ℚ) (lo hi : Fin n → Option ℚ) :
    (Fin n → ℚ) × (Fin n → ℚ) :=
  (fun i => clipUpper (clipLower (u i) (lo i)) (hi i),
   fun i => if violatesBounds (u i) (lo i) (hi i) then 0 else du i)

/-- Modelled from the spec: the feasible fraction of an increasing step
against an optional upper bound. -/
def stepFracUpper (x d : ℚ) : Option ℚ → ℚ
  | some h => if h < x + d then (h - x) / d else 1
  | none => 1

/-- Modelled from the spec: the feasible fraction of a decreasing step
against an optional lower bound. -/
def stepFracLower (x d : ℚ) : Option ℚ → ℚ
  | some l => if x + d < l then (l - x) / d else 1
  | none => 1

/-- Modelled from the spec: the largest fraction `s ∈ [0,1]` of the step `d`
that the single entry starting at `x` can take without crossing its bounds
(assuming `x` itself is feasible). -/
def stepFrac (x d : ℚ) (lo hi : Option ℚ) : ℚ :=
  if 0 < d then stepFracUpper x d hi
  else if d < 0 then stepFracLower x d lo
  else 1

/-- Modelled from the spec ("vector": the whole output vector is pulled back
in unison to the earliest bound violation): the common step fraction is the
minimum of the per-entry feasible fractions. -/
def minStepFrac {n : ℕ} (u0 du : Fin n → ℚ) (lo hi : Fin n → Option ℚ) : ℚ :=
  (List.finRange n).foldl (fun acc i => min acc (stepFrac (u0 i) (du i) (lo i) (hi i))) 1

/-- Modelled from the spec ("vector" bound enforcement): every entry takes the
same scaled-back fraction of its Newton step. -/
def enforceVector {n : ℕ} (u0 du : Fin n → ℚ) (lo hi : Fin n → Option ℚ) :
    Fin n → ℚ :=
  fun i => u0 i + minStepFrac u0 du lo hi * du i

/-- The default `bound_enforcement` option value of the `BoundsEnforceLS`
line search, per the bounds_enforce notebook ("This is the default bounds
enforcement for `BoundsEnforceLS`", said of "scalar"). -/
def boundsEnforceLSDefaultEnforcement : String := "scalar"

/-- Modelled from the spec: the `BoundsEnforceLS` globalizer only enforces the
bounds on the Newton-stepped point and performs no further backtracking, so it
returns just the enforced point under the selected policy. -/
def boundsEnforceLS {n : ℕ} (policy : String) (u0 du : Fin n → ℚ)
    (lo hi : Fin n → Option ℚ) : Fin n → ℚ :=
  if policy = "vector" then enforceVector u0 du lo hi
  else if policy = "wall" then (enforceWall (fun i => u0 i + du i) du lo hi).1
  else (enforceScalar (fun i => u0 i + du i) du lo hi).1

/-! Section: The paraboloid example and `compute_totals` on a single explicit unit

From `compute_totals.ipynb` (the Paraboloid test component and its assertion
cells): `f = (x-3)^2 + x*y + (y+4)^2 - 3` with analytic partials declared for
both inputs. -/

/-- The paraboloid objective of the compute_totals notebook example. -/
def paraboloid (x y : ℚ) : ℚ := (x - 3) ^ 2 + x * y + (y + 4) ^ 2 - 3

/-- The declared analytic partial `df/dx` of the paraboloid unit. -/
def paraboloidDfdx (x y : ℚ) : ℚ := 2 * x - 6 + y

/-- The declared analytic partial `df/dy` of the paraboloid unit. -/
def paraboloidDfdy (x y : ℚ) : ℚ := 2 * y + 8 + x

/-- Modelled from the spec: for a single explicit unit the total derivative in
forward mode solves the 1×1 linear system `(∂r/∂f) v = -(∂r/∂x)` where the
residual of an explicit output is `r = f_out - f(x,y)`, so `∂r/∂f = 1` and
`∂r/∂x = -∂f/∂x`. -/
def totalsExplicitUnit (dResdOut dResdIn : ℚ) : ℚ := -dResdIn / dResdOut

/-- Modelled from the spec: `compute_totals` on the single-unit paraboloid
model returns the pair `(df/dx, df/dy)` obtained from one trivial linear solve
per input using the unit's declared analytic partials. -/
def computeTotalsParaboloid (x y : ℚ) : ℚ × ℚ :=
  (totalsExplicitUnit 1 (-paraboloidDfdx x y), totalsExplicitUnit 1 (-paraboloidDfdy x y))

/-! Section: Declared partials and the Jacobian store

From `src/unnamed/part_001` (the explicit-component partials tutorial: "Any
partial that is not declared is assumed to be zero") and spec §3/§4.3: a unit
declares, at setup time, the list of `(of, wrt)` pairs it will provide; the
Jacobian assembler writes values only at declared keys. -/

/-- A unit's declared partial-derivative metadata: the declared `(of, wrt)`
pairs and the value that `compute_partials` supplies for each declared pair. -/
structure UnitPartials where
  declared : List (String × String)
  value : String × String → ℚ

/-- Modelled from the spec: the Jacobian storage starts structurally zero. -/
def emptyJacStore : String × String → ℚ := fun _ => 0

/-- Modelled from the spec: assembling the unit's partial Jacobian writes the
computed value at every declared key and touches nothing else. -/
def assembleJac (U : UnitPartials) : String × String → ℚ :=
  U.declared.foldl (fun store k => fun k' => if k' = k then U.value k else store k') emptyJacStore

/-- Modelled from the spec: the matrix-free product of one Jacobian row with a
seed vector, summed over the unit's `wrt` variables. -/
def jacRowMatvec (store : String × String → ℚ) (wrts : List String)
    (v : String → ℚ) (of : String) : ℚ :=
  (wrts.map fun w => store (of, w) * v w).sum

/-! Section: Forward/reverse duality of total-derivative linear solves

Modelled from the spec (§4.6, §6, §8): the Linear Solver exposes
`solve(rhs, mode)` with forward mode solving `J x = rhs` and reverse mode
solving `Jᵗ x = rhs`; `compute_totals` seeds a unit vector per `wrt` column
(forward) or per `of` row (reverse) and reads one entry of the solution. -/

/-- The seed vector for one variable: a unit coordinate vector. -/
def unitSeed {n : ℕ} (j : Fin n) : Fin n → ℚ := fun j' => if j' = j then 1 else 0

/-- Modelled from the spec: `x` is a forward-mode linear solve result,
`J x = b`. -/
def IsFwdSolve {n : ℕ} (J : Matrix (Fin n) (Fin n) ℚ) (x b : Fin n → ℚ) : Prop :=
  J.mulVec x = b

/-- Modelled from the spec: `y` is a reverse-mode linear solve result,
`Jᵗ y = b` (equivalently `y ⬝ J = b`). -/
def IsRevSolve {n : ℕ} (J : Matrix (Fin n) (Fin n) ℚ) (y b : Fin n → ℚ) : Prop :=
  Matrix.vecMul y J = b

instance {n : ℕ} (J : Matrix (Fin n) (Fin n) ℚ) (x b : Fin n → ℚ) :
    Decidable (IsFwdSolve J x b) := by
  unfold IsFwdSolve; infer_instance

instance {n : ℕ} (J : Matrix (Fin n) (Fin n) ℚ) (y b : Fin n → ℚ) :
    Decidable (IsRevSolve J y b) := by
  unfold IsRevSolve; infer_instance

/-- Modelled from the spec: the `(of, wrt)` total-derivative entry read from a
forward solve against the `wrt` seed is the `of` entry of the solution. -/
def totalFwdEntry {n : ℕ} (x : Fin n → ℚ) (of : Fin n) : ℚ := x of

/-- Modelled from the spec: the `(of, wrt)` total-derivative entry read from a
reverse solve against the `of` seed is the `wrt` entry of the solution. -/
def totalRevEntry {n : ℕ} (y : Fin n → ℚ) (wrt : Fin n) : ℚ := y wrt

/-! Section: Coloring

Modelled from the spec (§3 "Coloring", §4.7, §8): a coloring partitions the
Jacobian columns so that columns sharing a color have disjoint nonzero-row
sets in the declared sparsity; one combined probe per color then recovers all
of its columns at once. -/

/-- Modelled from the spec: a coloring (a column → color map) is valid for a
sparsity pattern `S` when two distinct columns of the same color never share a
nonzero row. -/
def ValidColoring {m n k : ℕ} (S : Fin m → Fin n → Bool) (color : Fin n → Fin k) : Prop :=
  ∀ (i : Fin m) (j₁ j₂ : Fin n), color j₁ = color j₂ → S i j₁ = true → S i j₂ = true → j₁ = j₂

/-- Modelled from the spec: the sparsity pattern covers every numeric nonzero
of the Jacobian. -/
def CoversSparsity {m n : ℕ} (J : Matrix (Fin m) (Fin n) ℚ) (S : Fin m → Fin n → Bool) : Prop :=
  ∀ i j, J i j ≠ 0 → S i j = true

instance {m n k : ℕ} (S : Fin m → Fin n → Bool) (color : Fin n → Fin k) :
    Decidable (ValidColoring S color) := by
  unfold ValidColoring; infer_instance

instance {m n : ℕ} (J : Matrix (Fin m) (Fin n) ℚ) (S : Fin m → Fin n → Bool) :
    Decidable (CoversSparsity J S) := by
  unfold CoversSparsity; infer_instance

/-- Modelled from the spec: the combined probe vector of one color group is
the sum of the unit seeds of its columns. -/
def probeVec {n k : ℕ} (color : Fin n → Fin k) (c : Fin k) : Fin n → ℚ :=
  fun j => if color j = c then 1 else 0

/-- Modelled from the spec: the colored total-derivative computation performs
one linear solve (here: one matrix-vector product against the total Jacobian)
per color, and recovers entry `(i, j)` from the probe of `j`'s color wherever
the sparsity pattern says it can be nonzero. -/
def coloredEntry {m n k : ℕ} (J : Matrix (Fin m) (Fin n) ℚ)
    (S : Fin m → Fin n → Bool) (color : Fin n → Fin k) (i : Fin m) (j : Fin n) : ℚ :=
  if S i j then J.mulVec (probeVec color (color j)) i else 0

/-- Modelled from the spec: the naive computation probes one column per
variable, one linear solve each. -/
def naiveEntry {m n : ℕ} (J : Matrix (Fin m) (Fin n) ℚ) (i : Fin m) (j : Fin n) : ℚ :=
  J.mulVec (unitSeed j) i

/-! Section: AnalysisError handling in the Newton line search

Modelled from the spec (§4.5, §7) and the `retry_on_analysis_error` prose of
`external_code_comp.ipynb`: by default the ArmijoGoldstein line search
backtracks when the model raises an AnalysisError; if the option is set to
False (or no backtracking line search is configured at all) the error
escalates. -/

/-- The result of evaluating the model at a trial point: either a residual
norm, or an AnalysisError signalled by some unit. -/
inductive EvalResult where
  | ok (resNorm : ℚ)
  | analysisError
deriving DecidableEq

/-- Configuration of a backtracking line search. -/
structure LineSearchConfig where
  retryOnAnalysisError : Bool
  maxiter : ℕ

/-- The default line-search configuration: `retry_on_analysis_error` defaults
to True per the external_code_comp notebook. -/
def defaultLineSearchConfig (maxiter : ℕ) : LineSearchConfig :=
  { retryOnAnalysisError := true, maxiter := maxiter }

/-- Modelled from the spec: the backtracking loop of the line search.  Each
round evaluates the model at step length `α`; on an AnalysisError it retries
with the halved step when `retry_on_analysis_error` is set, and otherwise
lets the error escalate. -/
def lineSearchBacktrack (eval : ℚ → EvalResult) (retry : Bool) : ℕ → ℚ → EvalResult
  | 0, α => eval α
  | fuel + 1, α =>
      match eval α with
      | .ok r => .ok r
      | .analysisError =>
          if retry then lineSearchBacktrack eval retry fuel (α / 2)
          else .analysisError

/-- Modelled from the spec: a Newton iteration owning an optional line search.
With no line search configured, the step is taken as-is and an AnalysisError
escalates; with a line search, the backtracking loop runs. -/
def newtonApplyStep (ls : Option LineSearchConfig) (eval : ℚ → EvalResult) (α : ℚ) :
    EvalResult :=
  match ls with
  | none => eval α
  | some cfg => lineSearchBacktrack eval cfg.retryOnAnalysisError cfg.maxiter α

/-! Section: Solver iteration caps, status reporting and options

Modelled from the spec (§4.5, §6, §7): a solve runs until convergence
(`‖r‖ < atol` or `‖r‖/‖r0‖ < rtol`) or the `maxiter` cap, always produces a
status (converged flag, iteration count, final residual norm), and escalates
to an error only under the opt-in option.  The recognized option names come
from the notebooks under `docs/` (`maxiter`, `bound_enforcement`,
`err_on_non_converge`, `retry_on_analysis_error`) and spec §6 (`atol`,
`rtol`). -/

/-- The status every solve call reports, even on failure. -/
structure SolverStatus where
  converged : Bool
  iterations : ℕ
  resNorm : ℚ
deriving DecidableEq

/-- Modelled from the spec: the convergence test
`‖r‖ < atol ∨ ‖r‖/‖r0‖ < rtol`. -/
def isConverged (atol rtol r0 r : ℚ) : Bool :=
  decide (|r| < atol) || decide (|r| < rtol * |r0|)

/-- Per-solve options of a nonlinear/linear solver instance. -/
structure SolverOptions where
  maxiter : ℕ
  atol : ℚ
  rtol : ℚ
  errOnNonConverge : Bool

/-- The option names recognized by the solver options dictionary, as they are
spelled in the repository's documentation notebooks and spec §6.  In
particular the opt-in "error on hitting the iteration cap" option is spelled
`err_on_non_converge` (external_code_comp notebook). -/
def solverOptionNames : List String :=
  ["maxiter", "atol", "rtol", "bound_enforcement", "err_on_non_converge",
   "retry_on_analysis_error"]

/-- Modelled from the spec: the solve iteration loop.  `fuel` counts the
remaining allowed iterations; `step` advances the residual norm by one
nonlinear update.  On exhausting the cap the loop still returns a status
carrying the final residual norm and the iteration count. -/
def nlIterate (step : ℚ → ℚ) (atol rtol r0 : ℚ) : ℕ → ℚ → ℕ → SolverStatus
  | 0, r, iters => ⟨isConverged atol rtol r0 r, iters, r⟩
  | fuel + 1, r, iters =>
      if isConverged atol rtol r0 r then ⟨true, iters, r⟩
      else nlIterate step atol rtol r0 fuel (step r) (iters + 1)

/-- Modelled from the spec: run a solve from initial residual norm `r0` under
the given options. -/
def runSolve (step : ℚ → ℚ) (opts : SolverOptions) (r0 : ℚ) : SolverStatus :=
  nlIterate step opts.atol opts.rtol r0 opts.maxiter r0 0

/-- Modelled from the spec: a solve returns its status normally; it raises
(models a fatal error, the `Except.error` branch) exactly when it failed to
converge and the caller opted in via `err_on_non_converge`. -/
def solveOrRaise (step : ℚ → ℚ) (opts : SolverOptions) (r0 : ℚ) :
    Except SolverStatus SolverStatus :=
  let st := runSolve step opts r0
  if !st.converged && opts.errOnNonConverge then .error st else .ok st

/-! Section: User-defined linear solve functions (LinearUserDefined)

From `src/unnamed/part_004`: a custom solve function has signature
`solve_function(d_outputs, d_residuals, mode)` with `mode ∈ {'fwd', 'rev'}`;
in `'fwd'` it maps `d_residuals ↦ d_outputs`, in `'rev'` it maps
`d_outputs ↦ d_residuals`.  The notebook's `mysolve` preconditions with the
identity and is installed as the `precon` of a Krylov solver. -/

/-- The derivative-solve mode, `'fwd'` or `'rev'`. -/
inductive Mode where
  | fwd
  | rev
deriving DecidableEq

/-- The pair of derivative vectors a custom solve function operates on. -/
structure DVecs (n : ℕ) where
  dOutputs : Fin n → ℚ
  dResiduals : Fin n → ℚ

/-- The shape of a user-supplied custom linear-solve function. -/
def SolveFunction (n : ℕ) : Type := DVecs n → Mode → DVecs n

/-- The `mysolve` function of the LinearUserDefined notebook: an identity
preconditioner.  In `'fwd'` mode it sets `d_outputs` from `d_residuals`
(`d_outputs.set_vec(d_residuals)`); in `'rev'` mode it sets `d_residuals`
from `d_outputs`. -/
def mysolve {n : ℕ} : SolveFunction n := fun d m =>
  match m with
  | .fwd => ⟨d.dResiduals, d.dResiduals⟩
  | .rev => ⟨d.dOutputs, d.dOutputs⟩

/-- Modelled from the spec: one step of a preconditioned Krylov-type
iteration for `J x = b`: the preconditioner solve function is applied in
forward mode to the current residual and its `d_outputs` result is the
correction. -/
def krylovPrecondStep {n : ℕ} (matvec : (Fin n → ℚ) → Fin n → ℚ)
    (precon : SolveFunction n) (b x : Fin n → ℚ) : Fin n → ℚ :=
  let resid : Fin n → ℚ := fun i => b i - matvec x i
  let z := (precon ⟨fun _ => 0, resid⟩ Mode.fwd).dOutputs
  fun i => x i + z i

/-! Section: Complex-step allocation and the `under_complex_step` flag

From `complex_step.ipynb`: complex nonlinear vectors are allocated
automatically when any component calls `declare_partials` or
`declare_coloring` with `method='cs'`; otherwise they exist only when
`force_alloc_complex=True` is passed to `setup`.  A component's compute runs
with `under_complex_step` set only while partials are being computed or
checked, never during `run_model`. -/

/-- The complex-step-relevant declaration data of one component:
`declaresCsPartials` is true when the component calls `declare_partials` or
`declare_coloring` with `method='cs'` at the framework level; `internalCs`
marks ExecComp-style self-contained complex stepping, which does not require
framework complex vectors. -/
structure ComponentDecl where
  declaresCsPartials : Bool
  internalCs : Bool

/-- Modelled from the spec: complex nonlinear vectors are allocated when
`force_alloc_complex=True` is passed to setup, or some component declares its
partials/coloring with `method='cs'`. -/
def allocComplexVectors (comps : List ComponentDecl) (forceAllocComplex : Bool) : Bool :=
  forceAllocComplex || comps.any (·.declaresCsPartials)

/-- The phase a component's evaluate call runs in. -/
inductive RunPhase where
  | runModel
  | computePartials
  | checkPartials
deriving DecidableEq

/-- Modelled from the spec: the `under_complex_step` attribute of a component
during each phase.  During an ordinary `run_model` it is never set; during
the computation of the component's partials it is set when the declared
method is `'cs'`; during `check_partials`/`check_totals` it is set when the
check method is `'cs'`. -/
def underComplexStep (c : ComponentDecl) (checkMethodCs : Bool) : RunPhase → Bool
  | .runModel => false
  | .computePartials => c.declaresCsPartials
  | .checkPartials => checkMethodCs

/-! Section: Concrete example inputs used by the witnesses -/

/-- A concrete feasible starting point for a two-state bounded unit. -/
def exU0 : Fin 2 → ℚ := ![1, 0]

/-- A concrete Newton step overshooting the first state's upper bound. -/
def exDu : Fin 2 → ℚ := ![2, 1]

/-- Concrete lower bounds: none. -/
def exLo : Fin 2 → Option ℚ := ![none, none]

/-- Concrete upper bounds: the first state is capped at `2`. -/
def exHi : Fin 2 → Option ℚ := ![some 2, none]

/-- A concrete unit declaring only the `("f", "x")` partial. -/
def exPartials : UnitPartials :=
  { declared := [("f", "x")], value := fun _ => 7 }

/-- A concrete seed vector over variable names. -/
def exSeed : String → ℚ := fun w => if w = "x" then 2 else 5

/-- A concrete 2×2 model Jacobian. -/
def exJ : Matrix (Fin 2) (Fin 2) ℚ := !![1, 2; 0, 1]

/-- The forward solution of `exJ x = e₁`. -/
def exXf : Fin 2 → ℚ := ![-2, 1]

/-- The reverse solution of `exJᵗ y = e₀`. -/
def exYr : Fin 2 → ℚ := ![1, -2]

/-- A concrete 2×3 total Jacobian for the coloring witness. -/
def exJc : Matrix (Fin 2) (Fin 3) ℚ := !![1, 0, 3; 0, 2, 4]

/-- The sparsity pattern of `exJc`. -/
def exS : Fin 2 → Fin 3 → Bool := fun i j => !![true, false, true; false, true, true] i j

/-- A valid 2-coloring of `exS`: columns 0 and 1 share a color because their
nonzero rows are disjoint. -/
def exColor : Fin 3 → Fin 2 := ![0, 0, 1]

/-- A concrete evaluation that raises an AnalysisError at step lengths `≥ 1`
and succeeds at shorter steps. -/
def exEval : ℚ → EvalResult :=
  fun α => if 1 ≤ α then EvalResult.analysisError else EvalResult.ok α

/-! Section: Helper lemmas (shared) -/

lemma foldlMin_le_init {α : Type} (f : α → ℚ) (l : List α) (a : ℚ) :
    l.foldl (fun acc y => min acc (f y)) a ≤ a := by
  induction l generalizing a with
  | nil => exact le_rfl
  | cons y ys ih => exact le_trans (ih (min a (f y))) (min_le_left _ _)

lemma foldlMin_le_mem {α : Type} (f : α → ℚ) (l : List α) (x : α) :
    ∀ a : ℚ, x ∈ l → l.foldl (fun acc y => min acc (f y)) a ≤ f x := by
  induction l with
  | nil => intro a hx; cases hx
  | cons y ys ih =>
    intro a hx
    rw [List.foldl_cons]
    rcases List.mem_cons.mp hx with h | h
    · subst h
      exact le_trans (foldlMin_le_init f ys (min a (f x))) (min_le_right _ _)
    · exact ih (min a (f y)) h

lemma le_foldlMin {α : Type} (f : α → ℚ) (l : List α) (b : ℚ) :
    ∀ a : ℚ, b ≤ a → (∀ x ∈ l, b ≤ f x) →
      b ≤ l.foldl (fun acc y => min acc (f y)) a := by
  induction l with
  | nil => intro a ha _; exact ha
  | cons y ys ih =>
    intro a ha h
    rw [List.foldl_cons]
    exact ih (min a (f y)) (le_min ha (h y (by simp))) fun x hx => h x (by simp [hx])

lemma stepFrac_nonneg (x d : ℚ) (lo hi : Option ℚ) (hx : inBounds x lo hi) :
    0 ≤ stepFrac x d lo hi := by
  obtain ⟨hlo, hhi⟩ := hx
  unfold stepFrac
  by_cases hd : 0 < d
  · rw [if_pos hd]
    cases hi with
    | none => simp [stepFracUpper]
    | some h =>
      have hxh : x ≤ h := hhi
      simp only [stepFracUpper]
      by_cases hv : h < x + d
      · rw [if_pos hv]
        exact div_nonneg (by linarith) hd.le
      · rw [if_neg hv]; norm_num
  · rw [if_neg hd]
    by_cases hd2 : d < 0
    · rw [if_pos hd2]
      cases lo with
      | none => simp [stepFracLower]
      | some l =>
        have hlx : l ≤ x := hlo
        simp only [stepFracLower]
        by_cases hv : x + d < l
        · rw [if_pos hv, le_div_iff_of_neg hd2]
          linarith
        · rw [if_neg hv]; norm_num
    · rw [if_neg hd2]; norm_num

lemma stepFrac_le_one (x d : ℚ) (lo hi : Option ℚ) : stepFrac x d lo hi ≤ 1 := by
  unfold stepFrac
  by_cases hd : 0 < d
  · rw [if_pos hd]
    cases hi with
    | none => simp [stepFracUpper]
    | some h =>
      simp only [stepFracUpper]
      by_cases hv : h < x + d
      · rw [if_pos hv, div_le_one hd]
        linarith
      · rw [if_neg hv]
  · rw [if_neg hd]
    by_cases hd2 : d < 0
    · rw [if_pos hd2]
      cases lo with
      | none => simp [stepFracLower]
      | some l =>
        simp only [stepFracLower]
        by_cases hv : x + d < l
        · rw [if_pos hv, div_le_iff_of_neg hd2]
          linarith
        · rw [if_neg hv]
    · rw [if_neg hd2]

lemma inBounds_step (x d s : ℚ) (lo hi : Option ℚ) (hx : inBounds x lo hi)
    (hs0 : 0 ≤ s) (hs : s ≤ stepFrac x d lo hi) : inBounds (x + s * d) lo hi := by
  obtain ⟨hlo, hhi⟩ := hx
  unfold stepFrac at hs
  constructor
  · cases lo with
    | none => trivial
    | some l =>
      have hlx : l ≤ x := hlo
      show l ≤ x + s * d
      by_cases hd : 0 < d
      · nlinarith
      · by_cases hd2 : d < 0
        · rw [if_neg hd, if_pos hd2] at hs
          simp only [stepFracLower] at hs
          by_cases hv : x + d < l
          · rw [if_pos hv, le_div_iff_of_neg hd2] at hs
            linarith
          · rw [if_neg hv] at hs
            push_neg at hv
            nlinarith
        · have hd0 : d = 0 := le_antisymm (not_lt.mp hd) (not_lt.mp hd2)
          rw [hd0]
          simpa using hlx
  · cases hi with
    | none => trivial
    | some h =>
      have hxh : x ≤ h := hhi
      show x + s * d ≤ h
      by_cases hd : 0 < d
      · rw [if_pos hd] at hs
        simp only [stepFracUpper] at hs
        by_cases hv : h < x + d
        · rw [if_pos hv, le_div_iff₀ hd] at hs
          linarith
        · rw [if_neg hv] at hs
          push_neg at hv
          nlinarith
      · by_cases hd2 : d < 0
        · nlinarith
        · have hd0 : d = 0 := le_antisymm (not_lt.mp hd) (not_lt.mp hd2)
          rw [hd0]
          simpa using hxh

lemma minStepFrac_le_stepFrac {n : ℕ} (u0 du : Fin n → ℚ) (lo hi : Fin n → Option ℚ)
    (i : Fin n) : minStepFrac u0 du lo hi ≤ stepFrac (u0 i) (du i) (lo i) (hi i) := by
  unfold minStepFrac
  exact foldlMin_le_mem _ _ i 1 (List.mem_finRange i)

lemma minStepFrac_le_one {n : ℕ} (u0 du : Fin n → ℚ) (lo hi : Fin n → Option ℚ) :
    minStepFrac u0 du lo hi ≤ 1 := by
  unfold minStepFrac
  exact foldlMin_le_init _ _ 1

lemma minStepFrac_nonneg {n : ℕ} (u0 du : Fin n → ℚ) (lo hi : Fin n → Option ℚ)
    (hfeas : ∀ i, inBounds (u0 i) (lo i) (hi i)) : 0 ≤ minStepFrac u0 du lo hi := by
  unfold minStepFrac
  exact le_foldlMin _ _ 0 1 zero_le_one fun i _ => stepFrac_nonneg _ _ _ _ (hfeas i)

lemma violatesBounds_false_iff (x : ℚ) (lo hi : Option ℚ) :
    violatesBounds x lo hi = false ↔ inBounds x lo hi := by
  cases lo <;> cases hi <;>
    simp [violatesBounds, inBounds, lbOk, ubOk, not_lt]

lemma clip_of_inBounds (x : ℚ) (lo hi : Option ℚ) (hx : inBounds x lo hi) :
    clipUpper (clipLower x lo) hi = x := by
  obtain ⟨hlo, hhi⟩ := hx
  cases lo <;> cases hi <;>
    simp_all [clipLower, clipUpper, lbOk, ubOk]

lemma clip_lower_violation (x l : ℚ) (hi : Option ℚ) (hviol : x < l)
    (hle : ∀ h, hi = some h → l ≤ h) :
    clipUpper (clipLower x (some l)) hi = l := by
  cases hi with
  | none => simp [clipLower, clipUpper, max_eq_right hviol.le]
  | some h =>
    have hlh := hle h rfl
    simp [clipLower, clipUpper, max_eq_right hviol.le, min_eq_left hlh]

lemma clip_upper_violation (x h : ℚ) (lo : Option ℚ) (hviol : h < x)
    (hge : ∀ l, lo = some l → l ≤ h) :
    clipUpper (clipLower x lo) (some h) = h := by
  cases lo with
  | none => simp [clipLower, clipUpper, min_eq_right hviol.le]
  | some l =>
    have hlh := hge l rfl
    have hlx : l ≤ x := le_trans hlh hviol.le
    simp [clipLower, clipUpper, max_eq_left hlx, min_eq_right hviol.le]

lemma assembleFoldl_not_mem (val : String × String → ℚ) (l : List (String × String)) :
    ∀ (store : String × String → ℚ) (k : String × String), store k = 0 → k ∉ l →
      (l.foldl (fun store k' => fun k'' => if k'' = k' then val k' else store k'') store) k = 0 := by
  induction l with
  | nil => intro store k hk _; exact hk
  | cons y ys ih =>
    intro store k hk hnd
    rw [List.foldl_cons]
    refine ih _ k ?_ fun h => hnd (List.mem_cons_of_mem y h)
    have hky : k ≠ y := fun h => hnd (h ▸ List.mem_cons_self y ys)
    simpa [hky] using hk

lemma dotProduct_unitSeed_left {n : ℕ} (v : Fin n → ℚ) (j : Fin n) :
    Matrix.dotProduct (unitSeed j) v = v j := by
  simp [Matrix.dotProduct, unitSeed, ite_mul]

lemma dotProduct_unitSeed_right {n : ℕ} (v : Fin n → ℚ) (j : Fin n) :
    Matrix.dotProduct v (unitSeed j) = v j := by
  simp [Matrix.dotProduct, unitSeed, mul_ite]

lemma mulVec_unitSeed {m n : ℕ} (J : Matrix (Fin m) (Fin n) ℚ) (j : Fin n) (i : Fin m) :
    J.mulVec (unitSeed j) i = J i j := by
  unfold Matrix.mulVec
  exact dotProduct_unitSeed_right _ j

lemma mulVec_probe {m n k : ℕ} (J : Matrix (Fin m) (Fin n) ℚ) (S : Fin m → Fin n → Bool)
    (color : Fin n → Fin k) (hS : CoversSparsity J S) (hc : ValidColoring S color)
    (i : Fin m) (j : Fin n) (hSij : S i j = true) :
    J.mulVec (probeVec color (color j)) i = J i j := by
  simp only [Matrix.mulVec, Matrix.dotProduct, probeVec, mul_ite, mul_one, mul_zero]
  have hsum : (Finset.univ.sum fun j' : Fin n => if color j' = color j then J i j' else 0) =
      (if color j = color j then J i j else 0) := by
    refine Finset.sum_eq_single_of_mem j (Finset.mem_univ j) fun b _ hbj => ?_
    by_cases hcb : color b = color j
    · rw [if_pos hcb]
      by_contra h0
      exact hbj (hc i b j hcb (hS i b h0) hSij)
    · exact if_neg hcb
  rw [hsum, if_pos rfl]

lemma nlIterate_not_converged_iters (step : ℚ → ℚ) (atol rtol r0 : ℚ) :
    ∀ (fuel : ℕ) (r : ℚ) (iters : ℕ),
      (nlIterate step atol rtol r0 fuel r iters).converged = false →
      (nlIterate step atol rtol r0 fuel r iters).iterations = iters + fuel := by
  intro fuel
  induction fuel with
  | zero => intro r iters _; rfl
  | succ m ih =>
    intro r iters h
    rw [nlIterate] at h ⊢
    by_cases hc : isConverged atol rtol r0 r = true
    · rw [if_pos hc] at h
      cases h
    · rw [if_neg hc] at h ⊢
      rw [ih _ _ h]
      omega

/-! Section: Claim theorems -/

/-- C1: for a Newton line-search step on a bounded implicit state vector,
"wall" bound enforcement pulls each violating entry exactly to its bound
while every non-violating entry keeps its full Newton step, and "vector"
bound enforcement scales the entire step back by one common fraction
`s ∈ [0,1]` (determined by the earliest bound violation), so all entries move
together and land inside their bounds. -/
theorem C1_wall_and_vector_bound_enforcement {n : ℕ} (u0 du : Fin n → ℚ)
    (lo hi : Fin n → Option ℚ) (hfeas : ∀ i, inBounds (u0 i) (lo i) (hi i)) :
    (∀ i,
      (∀ l, lo i = some l → u0 i + du i < l →
        (enforceWall (fun j => u0 j + du j) du lo hi).1 i = l) ∧
      (∀ h, hi i = some h → h < u0 i + du i →
        (enforceWall (fun j => u0 j + du j) du lo hi).1 i = h) ∧
      (violatesBounds (u0 i + du i) (lo i) (hi i) = false →
        (enforceWall (fun j => u0 j + du j) du lo hi).1 i = u0 i + du i)) ∧
    (∃ s : ℚ, 0 ≤ s ∧ s ≤ 1 ∧
      (∀ i, enforceVector u0 du lo hi i = u0 i + s * du i) ∧
      (∀ i, inBounds (enforceVector u0 du lo hi i) (lo i) (hi i))) := by
  constructor
  · intro i
    obtain ⟨hl, hh⟩ := hfeas i
    refine ⟨?_, ?_, ?_⟩
    · intro l hli hviol
      show clipUpper (clipLower (u0 i + du i) (lo i)) (hi i) = l
      rw [hli]
      refine clip_lower_violation _ _ _ hviol ?_
      intro h hhi
      rw [hli] at hl
      rw [hhi] at hh
      exact le_trans hl hh
    · intro h hhi hviol
      show clipUpper (clipLower (u0 i + du i) (lo i)) (hi i) = h
      rw [hhi]
      refine clip_upper_violation _ _ _ hviol ?_
      intro l hli
      rw [hli] at hl
      rw [hhi] at hh
      exact le_trans hl hh
    · intro hnv
      show clipUpper (clipLower (u0 i + du i) (lo i)) (hi i) = u0 i + du i
      exact clip_of_inBounds _ _ _ ((violatesBounds_false_iff _ _ _).mp hnv)
  · refine ⟨minStepFrac u0 du lo hi, minStepFrac_nonneg u0 du lo hi hfeas,
      minStepFrac_le_one u0 du lo hi, fun i => rfl, fun i => ?_⟩
    exact inBounds_step (u0 i) (du i) (minStepFrac u0 du lo hi) (lo i) (hi i)
      (hfeas i) (minStepFrac_nonneg u0 du lo hi hfeas)
      (minStepFrac_le_stepFrac u0 du lo hi i)

/-- Witness for C1: a two-state unit whose first state is capped above at `2`,
with a Newton step overshooting that cap. -/
theorem C1_wall_and_vector_bound_enforcement_witness :
    (∀ i : Fin 2, inBounds (exU0 i) (exLo i) (exHi i)) ∧
    ((∀ i,
      (∀ l, exLo i = some l → exU0 i + exDu i < l →
        (enforceWall (fun j => exU0 j + exDu j) exDu exLo exHi).1 i = l) ∧
      (∀ h, exHi i = some h → h < exU0 i + exDu i →
        (enforceWall (fun j => exU0 j + exDu j) exDu exLo exHi).1 i = h) ∧
      (violatesBounds (exU0 i + exDu i) (exLo i) (exHi i) = false →
        (enforceWall (fun j => exU0 j + exDu j) exDu exLo exHi).1 i = exU0 i + exDu i)) ∧
    (∃ s : ℚ, 0 ≤ s ∧ s ≤ 1 ∧
      (∀ i, enforceVector exU0 exDu exLo exHi i = exU0 i + s * exDu i) ∧
      (∀ i, inBounds (enforceVector exU0 exDu exLo exHi i) (exLo i) (exHi i)))) :=
  ⟨by decide, C1_wall_and_vector_bound_enforcement exU0 exDu exLo exHi (by decide)⟩

/-- C9: under the `BoundsEnforceLS` globalizer, which performs no further
backtracking after capping, the "scalar" and "wall" bound-enforcement
policies return exactly the same point for every state vector and Newton
step, and the default policy of `BoundsEnforceLS` is "scalar". -/
theorem C9_boundsEnforceLS_scalar_wall_same {n : ℕ} (u0 du : Fin n → ℚ)
    (lo hi : Fin n → Option ℚ) :
    boundsEnforceLS "wall" u0 du lo hi = boundsEnforceLS "scalar" u0 du lo hi ∧
    boundsEnforceLSDefaultEnforcement = "scalar" := by
  constructor
  · unfold boundsEnforceLS
    norm_num
    rfl
  · rfl

/-- C2: an `(of, wrt)` pair that was not declared at setup time is treated as
structurally zero: Jacobian assembly never writes it (it keeps the value `0`
of the empty store), and it contributes nothing to a matrix-free product —
the row product is unaffected by any change of the seed at the undeclared
`wrt` — while assembly and the product remain total functions (no error). -/
theorem C2_undeclared_partial_structurally_zero (U : UnitPartials)
    (of w : String) (wrts : List String) (v : String → ℚ) (t : ℚ)
    (hnd : (of, w) ∉ U.declared) :
    assembleJac U (of, w) = 0 ∧
    jacRowMatvec (assembleJac U) wrts v of =
      jacRowMatvec (assembleJac U) wrts (Function.update v w t) of := by
  have h0 : assembleJac U (of, w) = 0 :=
    assembleFoldl_not_mem U.value U.declared emptyJacStore (of, w) rfl hnd
  refine ⟨h0, ?_⟩
  unfold jacRowMatvec
  congr 1
  refine List.map_congr_left fun w' _ => ?_
  by_cases hww : w' = w
  · subst hww
    rw [h0]
    simp
  · rw [Function.update_noteq hww]

/-- Witness for C2: the pair `("f", "y")` is undeclared in `exPartials`. -/
theorem C2_undeclared_partial_structurally_zero_witness :
    (("f", "y") ∉ exPartials.declared) ∧
    (assembleJac exPartials ("f", "y") = 0 ∧
     jacRowMatvec (assembleJac exPartials) ["x", "y"] exSeed "f" =
       jacRowMatvec (assembleJac exPartials) ["x", "y"] (Function.update exSeed "y" 99) "f") :=
  ⟨by decide,
   C2_undeclared_partial_structurally_zero exPartials "f" "y" ["x", "y"] exSeed 99 (by decide)⟩

/-- C3: on the single-unit paraboloid model, `compute_totals` returns exactly
`df/dx = 2x-6+y` and `df/dy = 2y+8+x` at every sample point — these are the
true first-order coefficients of `f` — and at `x=3, y=-4` it returns
`(-4, 3)`. -/
theorem C3_paraboloid_totals_exact (x y h : ℚ) :
    computeTotalsParaboloid x y = (paraboloidDfdx x y, paraboloidDfdy x y) ∧
    paraboloid (x + h) y - paraboloid x y = paraboloidDfdx x y * h + h ^ 2 ∧
    paraboloid x (y + h) - paraboloid x y = paraboloidDfdy x y * h + h ^ 2 ∧
    computeTotalsParaboloid 3 (-4) = (-4, 3) := by
  refine ⟨?_, ?_, ?_, ?_⟩
  · unfold computeTotalsParaboloid totalsExplicitUnit
    norm_num
  · unfold paraboloid paraboloidDfdx
    ring
  · unfold paraboloid paraboloidDfdy
    ring
  · unfold computeTotalsParaboloid totalsExplicitUnit paraboloidDfdx paraboloidDfdy
    norm_num

/-- C4: duality of forward and reverse total-derivative solves: if `x` solves
the forward system `J x = e_wrt` and `y` solves the reverse system
`Jᵗ y = e_of`, then the `(of, wrt)` total-derivative entry read from the
forward solve equals the one read from the reverse solve exactly. -/
theorem C4_fwd_rev_duality {n : ℕ} (J : Matrix (Fin n) (Fin n) ℚ)
    (x y : Fin n → ℚ) (of wrt : Fin n)
    (hf : IsFwdSolve J x (unitSeed wrt)) (hr : IsRevSolve J y (unitSeed of)) :
    totalFwdEntry x of = totalRevEntry y wrt := by
  unfold IsFwdSolve at hf
  unfold IsRevSolve at hr
  unfold totalFwdEntry totalRevEntry
  calc x of = Matrix.dotProduct (unitSeed of) x := (dotProduct_unitSeed_left x of).symm
    _ = Matrix.dotProduct (Matrix.vecMul y J) x := by rw [hr]
    _ = Matrix.dotProduct y (J.mulVec x) := (Matrix.dotProduct_mulVec y J x).symm
    _ = Matrix.dotProduct y (unitSeed wrt) := by rw [hf]
    _ = y wrt := dotProduct_unitSeed_right y wrt

/-- Witness for C4: the concrete 2×2 Jacobian `exJ` with its forward solution
against `e₁` and reverse solution against `e₀`. -/
theorem C4_fwd_rev_duality_witness :
    IsFwdSolve exJ exXf (unitSeed 1) ∧ IsRevSolve exJ exYr (unitSeed 0) ∧
    totalFwdEntry exXf 0 = totalRevEntry exYr 1 := by
  have hf : IsFwdSolve exJ exXf (unitSeed 1) := by
    unfold IsFwdSolve
    funext i
    fin_cases i <;>
      simp [exJ, exXf, unitSeed, Matrix.mulVec, Matrix.dotProduct, Fin.sum_univ_succ]
  have hr : IsRevSolve exJ exYr (unitSeed 0) := by
    unfold IsRevSolve
    funext i
    fin_cases i <;>
      simp [exJ, exYr, unitSeed, Matrix.vecMul, Matrix.dotProduct, Fin.sum_univ_succ]
  exact ⟨hf, hr, C4_fwd_rev_duality exJ exXf exYr 0 1 hf hr⟩

/-- C5: for any valid coloring of a sparsity pattern that covers the
Jacobian's nonzeros, recovering every entry from one probe per color gives
exactly the same total-derivative matrix as probing one column per variable,
and both equal the Jacobian entry itself. -/
theorem C5_coloring_matches_naive {m n k : ℕ} (J : Matrix (Fin m) (Fin n) ℚ)
    (S : Fin m → Fin n → Bool) (color : Fin n → Fin k)
    (hS : CoversSparsity J S) (hc : ValidColoring S color) :
    ∀ i j, coloredEntry J S color i j = naiveEntry J i j ∧ naiveEntry J i j = J i j := by
  intro i j
  have hnaive : naiveEntry J i j = J i j := mulVec_unitSeed J j i
  refine ⟨?_, hnaive⟩
  unfold coloredEntry
  rw [hnaive]
  by_cases hSij : S i j = true
  · rw [if_pos hSij]
    exact mulVec_probe J S color hS hc i j hSij
  · rw [if_neg hSij]
    by_contra h0
    exact hSij (hS i j fun hz => h0 hz.symm)

/-- Witness for C5: the concrete 2×3 Jacobian `exJc`, its sparsity `exS`, and
the valid 2-coloring `exColor` grouping columns 0 and 1. -/
theorem C5_coloring_matches_naive_witness :
    CoversSparsity exJc exS ∧ ValidColoring exS exColor ∧
    ∀ i j, coloredEntry exJc exS exColor i j = naiveEntry exJc i j ∧
      naiveEntry exJc i j = exJc i j := by
  have hS : CoversSparsity exJc exS := by
    unfold CoversSparsity
    intro i j
    fin_cases i <;> fin_cases j <;> simp [exJc, exS]
  have hc : ValidColoring exS exColor := by
    unfold ValidColoring
    intro i j₁ j₂ hcol h1 h2
    fin_cases i <;> fin_cases j₁ <;> fin_cases j₂ <;> simp_all [exS, exColor]
  exact ⟨hS, hc, C5_coloring_matches_naive exJc exS exColor hS hc⟩

/-- C6: when the model raises an AnalysisError during a solve, a configured
backtracking line search (whose `retry_on_analysis_error` option defaults to
True) retries with a halved step rather than propagating the error; the error
escalates to a fatal failure exactly when no backtracking line search is
configured or the retry behavior is explicitly disabled. -/
theorem C6_analysis_error_backtracks (eval : ℚ → EvalResult) (α : ℚ) (fuel : ℕ)
    (herr : eval α = EvalResult.analysisError) :
    ((defaultLineSearchConfig fuel).retryOnAnalysisError = true) ∧
    (newtonApplyStep (some (defaultLineSearchConfig (fuel + 1))) eval α =
      lineSearchBacktrack eval true fuel (α / 2)) ∧
    (newtonApplyStep none eval α = EvalResult.analysisError) ∧
    (lineSearchBacktrack eval false (fuel + 1) α = EvalResult.analysisError) := by
  refine ⟨rfl, ?_, ?_, ?_⟩
  · show lineSearchBacktrack eval true (fuel + 1) α = lineSearchBacktrack eval true fuel (α / 2)
    rw [lineSearchBacktrack, herr]
    rfl
  · show eval α = EvalResult.analysisError
    exact herr
  · rw [lineSearchBacktrack, herr]
    rfl

/-- Witness for C6: the concrete evaluation `exEval` raising an AnalysisError
at step length `1`. -/
theorem C6_analysis_error_backtracks_witness :
    exEval 1 = EvalResult.analysisError ∧
    (((defaultLineSearchConfig 3).retryOnAnalysisError = true) ∧
     (newtonApplyStep (some (defaultLineSearchConfig (3 + 1))) exEval 1 =
       lineSearchBacktrack exEval true 3 (1 / 2)) ∧
     (newtonApplyStep none exEval 1 = EvalResult.analysisError) ∧
     (lineSearchBacktrack exEval false (3 + 1) 1 = EvalResult.analysisError)) :=
  ⟨by decide, C6_analysis_error_backtracks exEval 1 3 (by decide)⟩

/-- C7 counterexample: the recognized solver options contain no option named
`err_on_non_convergence`; the opt-in option is spelled `err_on_non_converge`
in the repository's documentation. -/
theorem C7_option_name_counterexample :
    "err_on_non_convergence" ∉ solverOptionNames ∧
    "err_on_non_converge" ∈ solverOptionNames := by
  decide

/-- C7 (amended): when a solve reaches its iteration cap `maxiter` without
converging it returns normally with a non-convergence status carrying the
final residual norm and the iteration count (equal to `maxiter`); it becomes
a fatal error exactly when the caller opts in via the boolean solver option,
which is named `err_on_non_converge`. -/
theorem C7_non_convergence_is_status_not_error (step : ℚ → ℚ) (opts : SolverOptions)
    (r0 : ℚ) :
    ("err_on_non_converge" ∈ solverOptionNames) ∧
    (opts.errOnNonConverge = false →
      solveOrRaise step opts r0 = Except.ok (runSolve step opts r0)) ∧
    (∀ st, solveOrRaise step opts r0 = Except.error st ↔
      (runSolve step opts r0 = st ∧ (runSolve step opts r0).converged = false ∧
        opts.errOnNonConverge = true)) ∧
    ((runSolve step opts r0).converged = false →
      (runSolve step opts r0).iterations = opts.maxiter) := by
  refine ⟨by decide, ?_, ?_, ?_⟩
  · intro h
    simp [solveOrRaise, h]
  · intro st
    by_cases hcv : (runSolve step opts r0).converged = true
    · simp [solveOrRaise, hcv]
    · rw [Bool.not_eq_true] at hcv
      by_cases he : opts.errOnNonConverge = true
      · simp [solveOrRaise, hcv, he]
      · rw [Bool.not_eq_true] at he
        simp [solveOrRaise, hcv, he]
  · intro h
    have := nlIterate_not_converged_iters step opts.atol opts.rtol r0 opts.maxiter r0 0 h
    simpa using this

/-- C8: a user-supplied custom linear-solve function takes
`(d_outputs, d_residuals, mode)` with exactly the two modes `'fwd'` and
`'rev'`; the notebook's `mysolve` produces the solved `d_outputs` in forward
mode and the solved `d_residuals` in reverse mode, and installed as the
preconditioner of a Krylov iteration on the identity system it reaches the
exact solution in one step. -/
theorem C8_custom_solve_function_signature {n : ℕ} (d : DVecs n) (b x : Fin n → ℚ) :
    (∀ m : Mode, m = Mode.fwd ∨ m = Mode.rev) ∧
    (mysolve d Mode.fwd).dOutputs = d.dResiduals ∧
    (mysolve d Mode.fwd).dResiduals = d.dResiduals ∧
    (mysolve d Mode.rev).dResiduals = d.dOutputs ∧
    krylovPrecondStep id mysolve b x = b := by
  refine ⟨?_, rfl, rfl, rfl, ?_⟩
  · intro m
    cases m
    · exact Or.inl rfl
    · exact Or.inr rfl
  · funext i
    show x i + (b i - x i) = b i
    ring

/-- C10: complex nonlinear vectors are allocated iff some component declares
partials or coloring with `method='cs'` or the caller passes
`force_alloc_complex=True` to setup; and a component runs under complex step
only while partials are computed or checked, never during `run_model`. -/
theorem C10_complex_alloc_iff_and_phase (comps : List ComponentDecl) (force : Bool) :
    (allocComplexVectors comps force = true ↔
      force = true ∨ ∃ c ∈ comps, c.declaresCsPartials = true) ∧
    (∀ (c : ComponentDecl) (cm : Bool), underComplexStep c cm RunPhase.runModel = false) ∧
    (∀ (c : ComponentDecl) (cm : Bool) (ph : RunPhase),
      underComplexStep c cm ph = true →
      ph = RunPhase.computePartials ∨ ph = RunPhase.checkPartials) := by
  refine ⟨?_, fun c cm => rfl, ?_⟩
  · unfold allocComplexVectors
    simp [List.any_eq_true]
  · intro c cm ph h
    cases ph with
    | runModel => exact Bool.noConfusion h
    | computePartials => exact Or.inl rfl
    | checkPartials => exact Or.inr rfl

end OpenMDAO
